import Mathlib

/-!
Verification of `palindrome.py` (longest palindromic substring by center
expansion).  Strings are embedded as `List Char`; Python integers as `Int`.

`findLongestPalindrome` scans every position of the string, computes the
longest palindrome centered there (`getPalindromeAt`), and keeps the longest
one found, where Python's binary `max(a, b, key=k)` keeps `a` on ties.

`getPalindromeAt` expands a `(lower, upper)` pointer pair outward while
`lower >= 0 and upper < len(string) and string[lower] == string[upper]`,
once for the odd convention (`(position-1, position+1)`) and once for the
even convention (`(position, position+1)`), and finally returns the Python
slice `string[longest[0] : longest[1] + 1]`.
-/

/-- Python's binary `max(a, b, key=key)`: returns `b` only when
`key b` is strictly greater than `key a` (ties keep the first argument). -/
def pyMax2 {α β : Type} [LinearOrder β] (key : α → β) (a b : α) : α :=
  if key a < key b then b else a

/-- Clamping of one slice endpoint, Python slice semantics for the default
step: a negative index counts from the end of the sequence, and the result
is clamped into `[0, n]`. -/
def pyBound (n : Nat) (i : Int) : Nat :=
  if i < 0 then (i + n).toNat else min i.toNat n

/-- Python slice `s[a : b]` (default step). -/
def pySlice (s : List Char) (a b : Int) : List Char :=
  (s.take (pyBound s.length b)).drop (pyBound s.length a)

/-- The guard of the `while` loop of `getPalindromeAt`:
`lower >= 0 and upper < len(string) and string[lower] == string[upper]`.
Python's `and` short-circuits, so the two bounds tests precede the character
accesses; the fallback character `d` totalizes the accesses in the embedding. -/
def loopGuard (d : Char) (s : List Char) (lower upper : Int) : Prop :=
  0 ≤ lower ∧ upper < (s.length : Int) ∧
    s.getD lower.toNat d = s.getD upper.toNat d

instance (d : Char) (s : List Char) (lower upper : Int) :
    Decidable (loopGuard d s lower upper) := by
  unfold loopGuard; infer_instance

/-- The body of the `while` loop of `getPalindromeAt`, with explicit fuel so
that the definition is structurally recursive and computable.  Each iteration
increments `upper` and decrements `lower`. -/
def expandFuel (d : Char) (s : List Char) : Nat → Int → Int → Int × Int
  | 0, lower, upper => (lower, upper)
  | fuel + 1, lower, upper =>
    if loopGuard d s lower upper then
      expandFuel d s fuel (lower - 1) (upper + 1)
    else (lower, upper)

/-- The `while` loop of `getPalindromeAt`, run to completion: `s.length + 1`
units of fuel always suffice because `upper` increases by one per iteration
and every iteration requires `upper < s.length`. -/
def expand (d : Char) (s : List Char) (lower upper : Int) : Int × Int :=
  expandFuel d s (s.length + 1) lower upper

/-- Function `getPalindromeAt(position, string)` with an explicit fallback character
`d` for the (never reached) out-of-bounds reads of the loop guard. -/
def getPalindromeAtD (d : Char) (position : Int) (s : List Char) : List Char :=
  -- longest = (position, position)
  let longest : Int × Int := (position, position)
  -- first pass: (position - 1, position + 1)  (odd convention)
  let r1 := expand d s (position - 1) (position + 1)
  let longest := pyMax2 (fun a => a.2 - a.1) longest (r1.1 + 1, r1.2 - 1)
  -- second pass: (position, position + 1)  (even convention)
  let r2 := expand d s position (position + 1)
  let longest := pyMax2 (fun a => a.2 - a.1) longest (r2.1 + 1, r2.2 - 1)
  -- return string[longest[0] : longest[1] + 1]
  pySlice s longest.1 (longest.2 + 1)

/-- Function `getPalindromeAt(position, string)` from `palindrome.py`. -/
def getPalindromeAt (position : Int) (s : List Char) : List Char :=
  getPalindromeAtD '?' position s

/-- Function `findLongestPalindrome(string)` from `palindrome.py`:
`longest = ""`, then for each `position` in `range(len(string))`,
`longest = max(longest, getPalindromeAt(position, string), key=len)`. -/
def findLongestPalindrome (s : List Char) : List Char :=
  (List.range s.length).foldl
    (fun (longest : List Char) (position : Nat) => pyMax2 (fun a => a.length)
      longest (getPalindromeAt (position : Int) s)) []

/-! ### Basic helpers -/

theorem pyMax2_eq_right {α β : Type} [LinearOrder β] (key : α → β) {a b : α}
    (h : key a < key b) : pyMax2 key a b = b := if_pos h

theorem pyMax2_eq_left {α β : Type} [LinearOrder β] (key : α → β) {a b : α}
    (h : ¬ key a < key b) : pyMax2 key a b = a := if_neg h

/-- An in-range `getD` does not depend on the fallback element. -/
theorem getD_default_eq (s : List Char) (i : Nat) (h : i < s.length)
    (d d' : Char) : s.getD i d = s.getD i d' := by
  rw [List.getD_eq_getElem s d h, List.getD_eq_getElem s d' h]

/-- A Python slice with in-range `Nat` endpoints is `take`-then-`drop`. -/
theorem pySlice_of_nat (s : List Char) (a b : Nat) (ha : a ≤ s.length)
    (hb : b ≤ s.length) : pySlice s (a : Int) (b : Int) = (s.take b).drop a := by
  unfold pySlice pyBound
  rw [if_neg (by omega), if_neg (by omega), Int.toNat_natCast, Int.toNat_natCast,
    Nat.min_eq_left hb, Nat.min_eq_left ha]

/-! ### The expansion loop -/

/-- Full characterization of the expansion loop, given enough fuel: it runs
for some `k` iterations, every executed iteration had a true guard, and the
guard is false at the final state (the loop genuinely exits). -/
theorem expandFuel_spec (d : Char) (s : List Char) :
    ∀ (fuel : Nat) (l u : Int), (s.length : Int) < u + fuel →
    ∃ k : Nat, expandFuel d s fuel l u = (l - k, u + k) ∧
      (∀ m : Nat, m < k → loopGuard d s (l - m) (u + m)) ∧
      ¬ loopGuard d s (l - k) (u + k) := by
  intro fuel
  induction fuel with
  | zero =>
    intro l u h
    refine ⟨0, by simp [expandFuel], by omega, fun hc => ?_⟩
    have := hc.2.1
    simp only [Nat.cast_zero] at this h
    omega
  | succ fuel ih =>
    intro l u h
    by_cases hc : loopGuard d s l u
    · obtain ⟨k, hk, hsteps, hstop⟩ := ih (l - 1) (u + 1)
        (by push_cast at h ⊢; omega)
      refine ⟨k + 1, ?_, ?_, ?_⟩
      · rw [show expandFuel d s (fuel + 1) l u
            = expandFuel d s fuel (l - 1) (u + 1) from by
          simp [expandFuel, hc]]
        rw [hk]
        simp only [Prod.mk.injEq]
        constructor <;> push_cast <;> ring
      · intro m hm
        match m with
        | 0 => simpa using hc
        | m' + 1 =>
          have h1 : l - ((m' + 1 : Nat) : Int) = (l - 1) - m' := by
            push_cast; ring
          have h2 : u + ((m' + 1 : Nat) : Int) = (u + 1) + m' := by
            push_cast; ring
          rw [h1, h2]
          exact hsteps m' (by omega)
      · have h1 : l - ((k + 1 : Nat) : Int) = (l - 1) - k := by
          push_cast; ring
        have h2 : u + ((k + 1 : Nat) : Int) = (u + 1) + k := by
          push_cast; ring
        rw [h1, h2]
        exact hstop
    · refine ⟨0, by simp [expandFuel, hc], by omega, ?_⟩
      simpa using hc

/-- The guard fails immediately when `lower < 0`, whatever the fuel. -/
theorem expandFuel_neg (d : Char) (s : List Char) (fuel : Nat) (l u : Int)
    (hl : l < 0) (hf : 0 < fuel) : expandFuel d s fuel l u = (l, u) := by
  match fuel, hf with
  | fuel + 1, _ =>
    have hc : ¬ loopGuard d s l u := fun hc => absurd hc.1 (by omega)
    simp [expandFuel, hc]

/-- Characterization of `expand` at every state reachable from the call
sites of `getPalindromeAt` (there, `upper = position + 1`, and when
`upper < 0` the initial `lower` is negative as well). -/
theorem expand_spec (d : Char) (s : List Char) (l u : Int)
    (h : 0 ≤ u ∨ l < 0) :
    ∃ k : Nat, expand d s l u = (l - k, u + k) ∧
      (∀ m : Nat, m < k → loopGuard d s (l - m) (u + m)) ∧
      ¬ loopGuard d s (l - k) (u + k) := by
  by_cases hl : l < 0
  · refine ⟨0, ?_, by omega, fun hc => ?_⟩
    · show expandFuel d s (s.length + 1) l u = _
      rw [expandFuel_neg d s (s.length + 1) l u hl (by omega)]
      simp only [Prod.mk.injEq, Nat.cast_zero]
      omega
    · have := hc.1
      simp only [Nat.cast_zero] at this
      omega
  · rcases h with h | h
    · exact expandFuel_spec d s (s.length + 1) l u (by push_cast; omega)
    · omega

/-! ### Palindromic spans -/

/-- The pair `(a, b)` (inclusive endpoints) is a palindromic span of `s`: it is in
bounds and mirror-image positions hold equal characters. -/
def spanPal (s : List Char) (a b : Nat) : Prop :=
  a ≤ b ∧ b < s.length ∧
    ∀ i j : Nat, a ≤ i → i ≤ j → j ≤ b → i + j = a + b →
      s.getD i '?' = s.getD j '?'

/-- The iterations executed by the odd-convention pass starting at
`(p - 1, p + 1)` certify the palindromic span `(p - k, p + k)`. -/
theorem steps_spanPal_odd (d : Char) (s : List Char) (p : Nat)
    (hp : p < s.length) (k : Nat)
    (hsteps : ∀ m : Nat, m < k →
      loopGuard d s ((p : Int) - 1 - m) ((p : Int) + 1 + m)) :
    k ≤ p ∧ p + k < s.length ∧ spanPal s (p - k) (p + k) := by
  have hb : k ≤ p ∧ p + k < s.length := by
    rcases Nat.eq_zero_or_pos k with h | h
    · omega
    · have hg := hsteps (k - 1) (by omega)
      have h1 := hg.1
      have h2 := hg.2.1
      omega
  refine ⟨hb.1, hb.2, ⟨by omega, by omega, ?_⟩⟩
  intro i j hai hij hjb hsum
  rcases Nat.eq_or_lt_of_le hij with h | h
  · rw [h]
  · have hj : p + 1 ≤ j := by omega
    have hm : j - p - 1 < k := by omega
    have hg := hsteps (j - p - 1) hm
    have hchars := hg.2.2
    have hi : ((p : Int) - 1 - ((j - p - 1 : Nat) : Int)).toNat = i := by omega
    have hj2 : ((p : Int) + 1 + ((j - p - 1 : Nat) : Int)).toNat = j := by omega
    rw [hi, hj2] at hchars
    rw [getD_default_eq s i (by omega) '?' d, getD_default_eq s j (by omega) '?' d]
    exact hchars

/-- The iterations executed by the even-convention pass starting at
`(p, p + 1)` certify the palindromic span `(p + 1 - k, p + k)` (when the
loop ran at least once). -/
theorem steps_spanPal_even (d : Char) (s : List Char) (p : Nat)
    (k : Nat) (hk : 1 ≤ k)
    (hsteps : ∀ m : Nat, m < k →
      loopGuard d s ((p : Int) - m) ((p : Int) + 1 + m)) :
    k ≤ p + 1 ∧ p + k < s.length ∧ spanPal s (p + 1 - k) (p + k) := by
  have hb : k ≤ p + 1 ∧ p + k < s.length := by
    have hg := hsteps (k - 1) (by omega)
    have h1 := hg.1
    have h2 := hg.2.1
    omega
  refine ⟨hb.1, hb.2, ⟨by omega, by omega, ?_⟩⟩
  intro i j hai hij hjb hsum
  have hj : p + 1 ≤ j := by omega
  have hm : j - p - 1 < k := by omega
  have hg := hsteps (j - p - 1) hm
  have hchars := hg.2.2
  have hi : ((p : Int) - ((j - p - 1 : Nat) : Int)).toNat = i := by omega
  have hj2 : ((p : Int) + 1 + ((j - p - 1 : Nat) : Int)).toNat = j := by omega
  rw [hi, hj2] at hchars
  rw [getD_default_eq s i (by omega) '?' d, getD_default_eq s j (by omega) '?' d]
  exact hchars

/-- When the odd-convention pass stops after `k` iterations, no palindromic
span with center sum `2 * p` is longer than `2 * k + 1`. -/
theorem stop_max_odd (d : Char) (s : List Char) (p k : Nat)
    (hstop : ¬ loopGuard d s ((p : Int) - 1 - k) ((p : Int) + 1 + k))
    (a' b' : Nat) (hsp : spanPal s a' b') (hsum : a' + b' = 2 * p) :
    b' - a' ≤ 2 * k := by
  by_contra hcon
  obtain ⟨hab, hbn, hchars⟩ := hsp
  apply hstop
  have hi : a' ≤ p - 1 - k ∧ k + 1 ≤ p ∧ p + 1 + k ≤ b' := by omega
  refine ⟨by omega, by omega, ?_⟩
  have := hchars (p - 1 - k) (p + 1 + k) (by omega) (by omega) (by omega) (by omega)
  have e1 : ((p : Int) - 1 - (k : Int)).toNat = p - 1 - k := by omega
  have e2 : ((p : Int) + 1 + (k : Int)).toNat = p + 1 + k := by omega
  rw [e1, e2]
  rw [getD_default_eq s (p - 1 - k) (by omega) d '?',
    getD_default_eq s (p + 1 + k) (by omega) d '?']
  exact this

/-- When the even-convention pass stops after `k` iterations, no palindromic
span with center sum `2 * p + 1` is longer than `2 * k`. -/
theorem stop_max_even (d : Char) (s : List Char) (p k : Nat)
    (hstop : ¬ loopGuard d s ((p : Int) - k) ((p : Int) + 1 + k))
    (a' b' : Nat) (hsp : spanPal s a' b') (hsum : a' + b' = 2 * p + 1) :
    b' - a' + 1 ≤ 2 * k := by
  by_contra hcon
  obtain ⟨hab, hbn, hchars⟩ := hsp
  apply hstop
  have hi : a' ≤ p - k ∧ k ≤ p ∧ p + 1 + k ≤ b' := by omega
  refine ⟨by omega, by omega, ?_⟩
  have := hchars (p - k) (p + 1 + k) (by omega) (by omega) (by omega) (by omega)
  have e1 : ((p : Int) - (k : Int)).toNat = p - k := by omega
  have e2 : ((p : Int) + 1 + (k : Int)).toNat = p + 1 + k := by omega
  rw [e1, e2]
  rw [getD_default_eq s (p - k) (by omega) d '?',
    getD_default_eq s (p + 1 + k) (by omega) d '?']
  exact this

/-! ### Characterization of `getPalindromeAt` at an in-range position -/

/-- At an in-range position `p`, `getPalindromeAt` returns the slice of a
palindromic span `(a, b)` whose center sum `a + b` is `2p` (odd convention)
or `2p + 1` (even convention), and that span is at least as long as every
palindromic span anchored at the same center, in either convention. -/
theorem getPalindromeAtD_spec (d : Char) (s : List Char) (p : Nat)
    (hp : p < s.length) :
    ∃ a b : Nat, spanPal s a b ∧
      getPalindromeAtD d (p : Int) s = (s.take (b + 1)).drop a ∧
      (a + b = 2 * p ∨ a + b = 2 * p + 1) ∧
      ∀ a' b' : Nat, spanPal s a' b' →
        (a' + b' = 2 * p ∨ a' + b' = 2 * p + 1) → b' - a' ≤ b - a := by
  obtain ⟨k₁, hk1, hs1, ht1⟩ :=
    expand_spec d s ((p : Int) - 1) ((p : Int) + 1) (Or.inl (by omega))
  obtain ⟨k₂, hk2, hs2, ht2⟩ :=
    expand_spec d s (p : Int) ((p : Int) + 1) (Or.inl (by omega))
  have hs1' : ∀ m : Nat, m < k₁ →
      loopGuard d s ((p : Int) - 1 - m) ((p : Int) + 1 + m) := by
    intro m hm
    have := hs1 m hm
    rwa [show (p : Int) - 1 - (m : Int) = ((p : Int) - 1) - m from rfl]
  obtain ⟨hkp1, hkn1, hsp1⟩ := steps_spanPal_odd d s p hp k₁ hs1'
  have hunf : getPalindromeAtD d (p : Int) s =
      pySlice s
        ((pyMax2 (fun a : Int × Int => a.2 - a.1)
          (pyMax2 (fun a : Int × Int => a.2 - a.1) ((p : Int), (p : Int))
            (((p : Int) - 1 - k₁) + 1, ((p : Int) + 1 + k₁) - 1))
          (((p : Int) - k₂) + 1, ((p : Int) + 1 + k₂) - 1)).1)
        ((pyMax2 (fun a : Int × Int => a.2 - a.1)
          (pyMax2 (fun a : Int × Int => a.2 - a.1) ((p : Int), (p : Int))
            (((p : Int) - 1 - k₁) + 1, ((p : Int) + 1 + k₁) - 1))
          (((p : Int) - k₂) + 1, ((p : Int) + 1 + k₂) - 1)).2 + 1) := by
    simp only [getPalindromeAtD]
    rw [hk1, hk2]
  have hinner : pyMax2 (fun a : Int × Int => a.2 - a.1) ((p : Int), (p : Int))
      (((p : Int) - 1 - k₁) + 1, ((p : Int) + 1 + k₁) - 1)
      = ((p : Int) - k₁, (p : Int) + k₁) := by
    rcases Nat.eq_zero_or_pos k₁ with h | h
    · subst h
      unfold pyMax2
      rw [if_neg (by push_cast; omega)]
      simp only [Prod.mk.injEq, Nat.cast_zero]
      omega
    · unfold pyMax2
      rw [if_pos (by push_cast; omega)]
      simp only [Prod.mk.injEq]
      omega
  rw [hinner] at hunf
  by_cases hw : 2 * (k₁ : Int) < 2 * (k₂ : Int) - 1
  · -- the even-convention span wins
    have hk2pos : 1 ≤ k₂ := by omega
    obtain ⟨hkp2, hkn2, hsp2⟩ := steps_spanPal_even d s p k₂ hk2pos hs2
    refine ⟨p + 1 - k₂, p + k₂, hsp2, ?_, Or.inr (by omega), ?_⟩
    · rw [hunf]
      unfold pyMax2
      rw [if_pos (by push_cast; omega)]
      have e1 : ((p : Int) - k₂) + 1 = ((p + 1 - k₂ : Nat) : Int) := by omega
      have e2 : (((p : Int) + 1 + k₂) - 1) + 1 = ((p + k₂ + 1 : Nat) : Int) := by
        omega
      rw [show ((((p : Int) - ↑k₂) + 1, ((p : Int) + 1 + ↑k₂) - 1).1 : Int)
          = ((p : Int) - k₂) + 1 from rfl]
      rw [show ((((p : Int) - ↑k₂) + 1, ((p : Int) + 1 + ↑k₂) - 1).2 : Int)
          = ((p : Int) + 1 + k₂) - 1 from rfl]
      rw [e1, e2, pySlice_of_nat s (p + 1 - k₂) (p + k₂ + 1) (by omega) (by omega)]
    · intro a' b' hsp' hsum'
      rcases hsum' with hsum' | hsum'
      · have := stop_max_odd d s p k₁ ht1 a' b' hsp' hsum'
        omega
      · have := stop_max_even d s p k₂ ht2 a' b' hsp' hsum'
        omega
  · -- the odd-convention span wins (ties keep the earlier, odd, convention)
    refine ⟨p - k₁, p + k₁, hsp1, ?_, Or.inl (by omega), ?_⟩
    · rw [hunf]
      unfold pyMax2
      rw [if_neg (by push_cast; omega)]
      have e1 : (p : Int) - k₁ = ((p - k₁ : Nat) : Int) := by omega
      have e2 : ((p : Int) + k₁) + 1 = ((p + k₁ + 1 : Nat) : Int) := by omega
      rw [show ((((p : Int) - ↑k₁, (p : Int) + ↑k₁) : Int × Int).1 : Int)
          = (p : Int) - k₁ from rfl]
      rw [show ((((p : Int) - ↑k₁, (p : Int) + ↑k₁) : Int × Int).2 : Int)
          = (p : Int) + k₁ from rfl]
      rw [e1, e2, pySlice_of_nat s (p - k₁) (p + k₁ + 1) (by omega) (by omega)]
    · intro a' b' hsp' hsum'
      rcases hsum' with hsum' | hsum'
      · have := stop_max_odd d s p k₁ ht1 a' b' hsp' hsum'
        omega
      · have := stop_max_even d s p k₂ ht2 a' b' hsp' hsum'
        omega

/-! ### Bridging spans, slices, and reversal -/

theorem length_dropTake (s : List Char) (a m : Nat) (h : a + m ≤ s.length) :
    ((s.drop a).take m).length = m := by
  simp only [List.length_take, List.length_drop]
  omega

theorem getD_reverse (l : List Char) (i : Nat) (h : i < l.length) (d : Char) :
    l.reverse.getD i d = l.getD (l.length - 1 - i) d := by
  rw [List.getD_eq_getElem _ _ (by simpa using h),
    List.getD_eq_getElem _ _ (by omega), List.getElem_reverse]

theorem getD_dropTake (s : List Char) (a m i : Nat) (hi : i < m)
    (hb : a + m ≤ s.length) (d : Char) :
    ((s.drop a).take m).getD i d = s.getD (a + i) d := by
  rw [List.getD_eq_getElem _ _ (by rw [length_dropTake s a m hb]; omega),
    List.getD_eq_getElem _ _ (by omega), List.getElem_take, List.getElem_drop]

/-- The slice of a palindromic span reads the same reversed. -/
theorem spanPal_reverse (s : List Char) (a b : Nat) (h : spanPal s a b) :
    ((s.drop a).take (b + 1 - a)).reverse = (s.drop a).take (b + 1 - a) := by
  obtain ⟨hab, hbn, hchars⟩ := h
  have hm : a + (b + 1 - a) ≤ s.length := by omega
  have hlen := length_dropTake s a (b + 1 - a) hm
  apply List.ext_getElem (by simp)
  intro n h1 h2
  rw [← List.getD_eq_getElem _ '?' h1, ← List.getD_eq_getElem _ '?' h2]
  rw [getD_reverse _ _ (by simpa using h1) '?', hlen]
  rw [hlen] at h2
  rw [getD_dropTake s a (b + 1 - a) _ (by omega) hm,
    getD_dropTake s a (b + 1 - a) _ (by omega) hm]
  have e1 : a + (b + 1 - a - 1 - n) = b - n := by omega
  rw [e1]
  rcases le_total (a + n) (b - n) with hc | hc
  · exact (hchars (a + n) (b - n) (by omega) hc (by omega) (by omega)).symm
  · exact hchars (b - n) (a + n) (by omega) hc (by omega) (by omega)

/-- A nonempty slice of `s` that reads the same reversed is a palindromic
span of `s`. -/
theorem spanPal_of_reverse (s : List Char) (a m : Nat) (hm : 1 ≤ m)
    (hb : a + m ≤ s.length)
    (hpal : ((s.drop a).take m).reverse = (s.drop a).take m) :
    spanPal s a (a + m - 1) := by
  refine ⟨by omega, by omega, ?_⟩
  intro i j hai hij hjb hsum
  have h1 : s.getD i '?' = ((s.drop a).take m).getD (i - a) '?' := by
    rw [getD_dropTake s a m (i - a) (by omega) hb]
    congr 1
    omega
  have h3 : ((s.drop a).take m).reverse.getD (i - a) '?'
      = ((s.drop a).take m).getD (m - 1 - (i - a)) '?' := by
    rw [getD_reverse _ _ (by rw [length_dropTake s a m hb]; omega),
      length_dropTake s a m hb]
  have h4 : ((s.drop a).take m).getD (m - 1 - (i - a)) '?' = s.getD j '?' := by
    rw [getD_dropTake s a m _ (by omega) hb]
    congr 1
    omega
  rw [h1, ← hpal, h3, h4]

theorem dropTake_isInfix (s : List Char) (a m : Nat) :
    List.IsInfix ((s.drop a).take m) s := by
  have h1 := List.take_prefix m (s.drop a)
  have h2 := List.drop_suffix a s
  exact h1.isInfix.trans h2.isInfix

theorem isInfix_dropTake (t s : List Char) (h : List.IsInfix t s) :
    ∃ a : Nat, a + t.length ≤ s.length ∧ t = (s.drop a).take t.length := by
  obtain ⟨u, v, huv⟩ := h
  refine ⟨u.length, ?_, ?_⟩
  · rw [← huv]
    simp [List.length_append]
  · rw [← huv, List.append_assoc, List.drop_left, List.take_left]

/-- Characterization of `getPalindromeAt` at an in-range position, in `drop`-`take` form. -/
theorem getPalindromeAt_spec (s : List Char) (p : Nat) (hp : p < s.length) :
    ∃ a b : Nat, spanPal s a b ∧
      getPalindromeAt (p : Int) s = (s.drop a).take (b + 1 - a) ∧
      (getPalindromeAt (p : Int) s).length = b + 1 - a ∧
      (a + b = 2 * p ∨ a + b = 2 * p + 1) ∧
      ∀ a' b' : Nat, spanPal s a' b' →
        (a' + b' = 2 * p ∨ a' + b' = 2 * p + 1) → b' - a' ≤ b - a := by
  obtain ⟨a, b, hsp, heq, hsum, hmax⟩ := getPalindromeAtD_spec '?' s p hp
  have hab := hsp.1
  have hbn := hsp.2.1
  have heq' : getPalindromeAt (p : Int) s = (s.drop a).take (b + 1 - a) := by
    show getPalindromeAtD '?' (p : Int) s = _
    rw [heq, List.drop_take]
  refine ⟨a, b, hsp, heq', ?_, hsum, hmax⟩
  rw [heq', length_dropTake s a (b + 1 - a) (by omega)]

theorem getPalindromeAt_length_pos (s : List Char) (p : Nat)
    (hp : p < s.length) : 1 ≤ (getPalindromeAt (p : Int) s).length := by
  obtain ⟨a, b, hsp, -, hlen, -, -⟩ := getPalindromeAt_spec s p hp
  have hab := hsp.1
  omega

/-! ### The scan of `findLongestPalindrome` -/

/-- The running best after scanning positions `0, …, n - 1`. -/
def bestUpTo (s : List Char) : Nat → List Char
  | 0 => []
  | n + 1 => pyMax2 (fun a => a.length) (bestUpTo s n)
      (getPalindromeAt (n : Int) s)

theorem findLongestPalindrome_eq_bestUpTo (s : List Char) :
    findLongestPalindrome s = bestUpTo s s.length := by
  suffices h : ∀ n : Nat, List.foldl
      (fun (longest : List Char) (position : Nat) => pyMax2 (fun a => a.length)
        longest (getPalindromeAt (position : Int) s)) [] (List.range n)
      = bestUpTo s n by
    rw [findLongestPalindrome]
    exact h s.length
  intro n
  induction n with
  | zero => rfl
  | succ n ih => rw [List.range_succ, List.foldl_append, ih]; rfl

/-- The scan keeps the earliest candidate of maximal length: strictly
greater length is required to replace the running best. -/
theorem bestUpTo_spec (s : List Char) (n : Nat) (hn : 1 ≤ n)
    (hle : n ≤ s.length) :
    ∃ i : Nat, i < n ∧ bestUpTo s n = getPalindromeAt (i : Int) s ∧
      (∀ j : Nat, j < i → (getPalindromeAt (j : Int) s).length
        < (getPalindromeAt (i : Int) s).length) ∧
      (∀ j : Nat, j < n → (getPalindromeAt (j : Int) s).length
        ≤ (getPalindromeAt (i : Int) s).length) := by
  induction n with
  | zero => omega
  | succ n ih =>
    rcases Nat.eq_zero_or_pos n with h | h
    · subst h
      refine ⟨0, by omega, ?_, by omega, ?_⟩
      · show pyMax2 (fun a => a.length) [] (getPalindromeAt ((0 : Nat) : Int) s) = _
        exact pyMax2_eq_right _ (getPalindromeAt_length_pos s 0 (by omega))
      · intro j hj
        have : j = 0 := by omega
        subst this
        exact le_rfl
    · obtain ⟨i, hi, heq, hstrict, hmax⟩ := ih (by omega) (by omega)
      by_cases hw : (bestUpTo s n).length < (getPalindromeAt (n : Int) s).length
      · refine ⟨n, by omega, ?_, ?_, ?_⟩
        · show pyMax2 (fun a => a.length) (bestUpTo s n)
            (getPalindromeAt (n : Int) s) = _
          exact pyMax2_eq_right _ hw
        · intro j hj
          calc (getPalindromeAt (j : Int) s).length
              ≤ (getPalindromeAt (i : Int) s).length := hmax j hj
            _ = (bestUpTo s n).length := by rw [heq]
            _ < (getPalindromeAt (n : Int) s).length := hw
        · intro j hj
          rcases Nat.lt_or_ge j n with hj' | hj'
          · calc (getPalindromeAt (j : Int) s).length
                ≤ (getPalindromeAt (i : Int) s).length := hmax j hj'
              _ = (bestUpTo s n).length := by rw [heq]
              _ ≤ (getPalindromeAt (n : Int) s).length := le_of_lt hw
          · have : j = n := by omega
            subst this
            exact le_rfl
      · refine ⟨i, by omega, ?_, hstrict, ?_⟩
        · show pyMax2 (fun a => a.length) (bestUpTo s n)
            (getPalindromeAt (n : Int) s) = _
          rw [pyMax2_eq_left _ hw]
          exact heq
        · intro j hj
          rcases Nat.lt_or_ge j n with hj' | hj'
          · exact hmax j hj'
          · have : j = n := by omega
            subst this
            rw [← heq]
            omega

/-! ### Out-of-range positions -/

/-- At an out-of-range position neither pass expands, and the function
returns the Python slice `string[position : position + 1]`. -/
theorem getPalindromeAt_out_eq_slice (s : List Char) (p : Int)
    (h : p < 0 ∨ (s.length : Int) ≤ p) :
    getPalindromeAt p s = pySlice s p (p + 1) := by
  obtain ⟨k₁, hk1, hs1, ht1⟩ :=
    expand_spec '?' s (p - 1) (p + 1) (by omega)
  obtain ⟨k₂, hk2, hs2, ht2⟩ :=
    expand_spec '?' s p (p + 1) (by omega)
  have hz1 : k₁ = 0 := by
    by_contra hz
    have hg := hs1 0 (by omega)
    have h1 := hg.1
    have h2 := hg.2.1
    simp only [Nat.cast_zero] at h1 h2
    omega
  have hz2 : k₂ = 0 := by
    by_contra hz
    have hg := hs2 0 (by omega)
    have h1 := hg.1
    have h2 := hg.2.1
    simp only [Nat.cast_zero] at h1 h2
    omega
  subst hz1
  subst hz2
  simp only [Nat.cast_zero, sub_zero, add_zero] at hk1 hk2
  show getPalindromeAtD '?' p s = _
  simp only [getPalindromeAtD]
  rw [hk1, hk2]
  dsimp only
  have e1 : (p - 1 + 1 : Int) = p := by ring
  have e2 : (p + 1 - 1 : Int) = p := by ring
  rw [e1, e2]
  have hin : pyMax2 (fun a : Int × Int => a.2 - a.1) (p, p) (p, p) = (p, p) :=
    pyMax2_eq_left _ (lt_irrefl _)
  rw [hin]
  have hout : pyMax2 (fun a : Int × Int => a.2 - a.1) (p, p) (p + 1, p)
      = (p, p) :=
    pyMax2_eq_left _ (by show ¬ (p : Int) - p < p - (p + 1); omega)
  rw [hout]

/-- The one-element Python slice `s[a : a + 1]` at an in-range index. -/
theorem pySlice_single (s : List Char) (a : Nat) (h : a < s.length) :
    pySlice s (a : Int) ((a : Int) + 1) = [s.getD a '?'] := by
  have e : ((a : Int) + 1) = ((a + 1 : Nat) : Int) := by push_cast; ring
  rw [e, pySlice_of_nat s a (a + 1) (by omega) (by omega), List.drop_take]
  have e2 : a + 1 - a = 1 := by omega
  rw [e2, List.drop_eq_getElem_cons h,
    show (1 : Nat) = 0 + 1 from rfl, List.take_succ_cons, List.take_zero,
    List.getD_eq_getElem s '?' h]

/-- The empty Python slice `s[p : p + 1]` when the slice is degenerate. -/
theorem pySlice_empty (s : List Char) (p : Int)
    (h : p = -1 ∨ p + (s.length : Int) < 0 ∨ (s.length : Int) ≤ p) :
    pySlice s p (p + 1) = [] := by
  apply List.drop_eq_nil_of_le
  rw [List.length_take]
  unfold pyBound
  split_ifs <;> omega

/-! ### No out-of-bounds access: the fallback character is never read -/

theorem expandFuel_default_eq (d d' : Char) (s : List Char) :
    ∀ (fuel : Nat) (l u : Int), l < u →
      expandFuel d s fuel l u = expandFuel d' s fuel l u := by
  intro fuel
  induction fuel with
  | zero => intro l u _; rfl
  | succ fuel ih =>
    intro l u hlu
    have hguard : loopGuard d s l u ↔ loopGuard d' s l u := by
      unfold loopGuard
      constructor <;> rintro ⟨h1, h2, h3⟩ <;> refine ⟨h1, h2, ?_⟩
      · rw [getD_default_eq s l.toNat (by omega) d' d,
          getD_default_eq s u.toNat (by omega) d' d]
        exact h3
      · rw [getD_default_eq s l.toNat (by omega) d d',
          getD_default_eq s u.toNat (by omega) d d']
        exact h3
    simp only [expandFuel]
    by_cases hg : loopGuard d s l u
    · rw [if_pos hg, if_pos (hguard.mp hg), ih (l - 1) (u + 1) (by omega)]
    · rw [if_neg hg, if_neg (fun hx => hg (hguard.mpr hx))]

/-! ### The claims -/

/-- C1: for every input string `s`, no contiguous substring of `s` that is a
palindrome is strictly longer than the string returned by
`findLongestPalindrome s`. -/
theorem claim1_no_longer_palindromic_substring (s t : List Char)
    (hinf : List.IsInfix t s) (hpal : t.reverse = t) :
    t.length ≤ (findLongestPalindrome s).length := by
  rcases Nat.eq_zero_or_pos t.length with h0 | h0
  · omega
  obtain ⟨a, hb, ht⟩ := isInfix_dropTake t s hinf
  have hsp : spanPal s a (a + t.length - 1) :=
    spanPal_of_reverse s a t.length h0 hb (by rw [← ht]; exact hpal)
  have hn : 1 ≤ s.length := by omega
  obtain ⟨p, hp1, hp2⟩ : ∃ p : Nat,
      (a + (a + t.length - 1) = 2 * p ∨ a + (a + t.length - 1) = 2 * p + 1)
      ∧ p < s.length := by
    refine ⟨(a + (a + t.length - 1)) / 2, by omega, by omega⟩
  obtain ⟨A, B, hspAB, hEq, hlen, hsum, hmax⟩ := getPalindromeAt_spec s p hp2
  have h1 : (a + t.length - 1) - a ≤ B - A := hmax a (a + t.length - 1) hsp hp1
  have hABle := hspAB.1
  rw [findLongestPalindrome_eq_bestUpTo]
  obtain ⟨i, hi, hbeq, hstrict, hall⟩ := bestUpTo_spec s s.length hn le_rfl
  have h2 := hall p hp2
  rw [hbeq]
  omega

theorem claim1_witness :
    List.IsInfix ("aba".toList) ("xabay".toList) ∧
      ("aba".toList).reverse = "aba".toList ∧
      ("aba".toList).length ≤ (findLongestPalindrome ("xabay".toList)).length :=
  ⟨by decide, by decide,
    claim1_no_longer_palindromic_substring ("xabay".toList) ("aba".toList)
      (by decide) (by decide)⟩

/-- C2: the string returned by `findLongestPalindrome`, if non-empty, reads
identically forwards and backwards under direct character equality. -/
theorem claim2_result_is_palindrome (s : List Char)
    (h : findLongestPalindrome s ≠ []) :
    (findLongestPalindrome s).reverse = findLongestPalindrome s := by
  rcases Nat.eq_zero_or_pos s.length with h0 | h0
  · exfalso
    apply h
    rw [findLongestPalindrome_eq_bestUpTo, h0]
    rfl
  · rw [findLongestPalindrome_eq_bestUpTo]
    obtain ⟨i, hi, hbeq, -, -⟩ := bestUpTo_spec s s.length h0 le_rfl
    obtain ⟨a, b, hsp, heq, -, -, -⟩ := getPalindromeAt_spec s i hi
    rw [hbeq, heq]
    exact spanPal_reverse s a b hsp

theorem claim2_witness :
    findLongestPalindrome ("aba".toList) ≠ [] ∧
      (findLongestPalindrome ("aba".toList)).reverse
        = findLongestPalindrome ("aba".toList) :=
  ⟨by decide, claim2_result_is_palindrome ("aba".toList) (by decide)⟩

/-- C3: the result of `findLongestPalindrome` is a contiguous substring of
the input; in particular, for the empty input the result is empty. -/
theorem claim3_result_is_substring (s : List Char) :
    List.IsInfix (findLongestPalindrome s) s ∧
      (s = [] → findLongestPalindrome s = []) := by
  constructor
  · rcases Nat.eq_zero_or_pos s.length with h0 | h0
    · rw [findLongestPalindrome_eq_bestUpTo, h0]
      exact List.nil_infix
    · rw [findLongestPalindrome_eq_bestUpTo]
      obtain ⟨i, hi, hbeq, -, -⟩ := bestUpTo_spec s s.length h0 le_rfl
      obtain ⟨a, b, -, heq, -, -, -⟩ := getPalindromeAt_spec s i hi
      rw [hbeq, heq]
      exact dropTake_isInfix s a (b + 1 - a)
  · intro h
    subst h
    rfl

theorem claim3_witness :
    List.IsInfix (findLongestPalindrome ("ab".toList)) ("ab".toList) ∧
      findLongestPalindrome ([] : List Char) = [] :=
  ⟨(claim3_result_is_substring ("ab".toList)).1,
    (claim3_result_is_substring []).2 rfl⟩

/-- C4: the returned string occurs in `s` at a starting index that is
minimal among all starting indices of palindromic substrings of the same
(maximal) length: equal length never replaces the running best, so the
earliest-found — leftmost — maximum is returned. -/
theorem claim4_leftmost_among_maxima (s : List Char) (h : s ≠ []) :
    ∃ a : Nat, a + (findLongestPalindrome s).length ≤ s.length ∧
      findLongestPalindrome s
        = (s.drop a).take (findLongestPalindrome s).length ∧
      ∀ a' : Nat, a' + (findLongestPalindrome s).length ≤ s.length →
        ((s.drop a').take (findLongestPalindrome s).length).reverse
          = (s.drop a').take (findLongestPalindrome s).length →
        a ≤ a' := by
  have h0 : 1 ≤ s.length := List.length_pos.mpr h
  rw [findLongestPalindrome_eq_bestUpTo]
  obtain ⟨i, hi, hbeq, hstrict, hall⟩ := bestUpTo_spec s s.length h0 le_rfl
  obtain ⟨a, b, hsp, heq, hlen, hsum, hmax⟩ := getPalindromeAt_spec s i hi
  obtain ⟨hab, hbn, -⟩ := hsp
  rw [hbeq, hlen, heq]
  refine ⟨a, by omega, rfl, ?_⟩
  intro a' hb' hpal'
  by_contra hlt
  have hL : 1 ≤ b + 1 - a := by omega
  have hsp' : spanPal s a' (a' + (b + 1 - a) - 1) :=
    spanPal_of_reverse s a' (b + 1 - a) hL hb' hpal'
  obtain ⟨p', hp1, hp2⟩ : ∃ p' : Nat,
      (a' + (a' + (b + 1 - a) - 1) = 2 * p'
        ∨ a' + (a' + (b + 1 - a) - 1) = 2 * p' + 1) ∧ p' < s.length := by
    refine ⟨(a' + (a' + (b + 1 - a) - 1)) / 2, by omega, by omega⟩
  obtain ⟨A', B', hspAB', hEq', hlen', hsum', hmax'⟩ :=
    getPalindromeAt_spec s p' hp2
  have h1 : (a' + (b + 1 - a) - 1) - a' ≤ B' - A' :=
    hmax' a' (a' + (b + 1 - a) - 1) hsp' hp1
  have hA'B' := hspAB'.1
  have hp'i : p' < i := by omega
  have h2 := hstrict p' hp'i
  omega

theorem claim4_witness :
    ("bcb".toList ≠ []) ∧
      ∃ a : Nat, a + (findLongestPalindrome ("bcb".toList)).length
          ≤ ("bcb".toList).length ∧
        findLongestPalindrome ("bcb".toList)
          = (("bcb".toList).drop a).take
              (findLongestPalindrome ("bcb".toList)).length ∧
        ∀ a' : Nat, a' + (findLongestPalindrome ("bcb".toList)).length
            ≤ ("bcb".toList).length →
          ((("bcb".toList).drop a').take
              (findLongestPalindrome ("bcb".toList)).length).reverse
            = (("bcb".toList).drop a').take
                (findLongestPalindrome ("bcb".toList)).length →
          a ≤ a' :=
  ⟨by decide, claim4_leftmost_among_maxima ("bcb".toList) (by decide)⟩

/-- The one-element Python slice `s[p : p + 1]` for `p ∈ [-len, -2]`:
Python's negative indexing makes it non-empty. -/
theorem pySlice_single_neg (s : List Char) (p : Int) (h1 : p ≤ -2)
    (h2 : 0 ≤ p + (s.length : Int)) :
    pySlice s p (p + 1) = [s.getD (p + (s.length : Int)).toNat '?'] := by
  unfold pySlice pyBound
  rw [if_pos (by omega : p < 0), if_pos (by omega : p + 1 < 0)]
  have e : (p + 1 + (s.length : Int)).toNat
      = (p + (s.length : Int)).toNat + 1 := by omega
  rw [e, List.drop_take]
  have hlt : (p + (s.length : Int)).toNat < s.length := by omega
  have e2 : (p + (s.length : Int)).toNat + 1 - (p + (s.length : Int)).toNat
      = 1 := by omega
  rw [e2, List.drop_eq_getElem_cons hlt,
    show (1 : Nat) = 0 + 1 from rfl, List.take_succ_cons, List.take_zero,
    List.getD_eq_getElem s '?' hlt]

/-- C5 counterexample: the position `-2` is out of range for `"ab"`, yet
`getPalindromeAt` returns the non-empty string `"a"` (Python's negative
slice indexing), so out-of-range positions do not all yield an empty
result. -/
theorem claim5_counterexample :
    ((-2 : Int) < 0 ∨ (("ab".toList).length : Int) ≤ (-2 : Int)) ∧
      getPalindromeAt (-2) ("ab".toList) = "a".toList ∧
      getPalindromeAt (-2) ("ab".toList) ≠ [] :=
  ⟨Or.inl (by decide), by decide, by decide⟩

/-- C5 amended: every out-of-range position is tolerated (no failure, no
out-of-bounds indexing), and the result is empty for every position
`≥ length`, for position `-1`, and for every position `< -length`; however,
for a position `p ∈ [-length, -2]` the result is the single character at
index `length + p`, by Python's negative slice indexing. -/
theorem claim5_out_of_range_behavior (s : List Char) (p : Int) :
    (((s.length : Int) ≤ p ∨ p = -1 ∨ p + (s.length : Int) < 0) →
      getPalindromeAt p s = []) ∧
    (p ≤ -2 → 0 ≤ p + (s.length : Int) →
      getPalindromeAt p s = [s.getD (p + (s.length : Int)).toNat '?']) := by
  constructor
  · intro h
    rw [getPalindromeAt_out_eq_slice s p (by omega)]
    exact pySlice_empty s p (by omega)
  · intro h1 h2
    rw [getPalindromeAt_out_eq_slice s p (Or.inl (by omega))]
    exact pySlice_single_neg s p h1 h2

theorem claim5_witness :
    getPalindromeAt (-2) ("racecar".toList) = ['a'] ∧
      getPalindromeAt 7 ("racecar".toList) = [] := by
  constructor
  · have h := (claim5_out_of_range_behavior ("racecar".toList) (-2)).2
      (by decide) (by decide)
    simpa using h
  · exact (claim5_out_of_range_behavior ("racecar".toList) 7).1
      (Or.inl (by decide))

/-- C6: the bounds checks `lower >= 0` and `upper < len(string)` precede
every character comparison, so no out-of-bounds character access ever
occurs: the result of `getPalindromeAt` is entirely independent of the
fallback character that totalizes the embedded accesses, for every
position (in range or not) and every string (empty included). -/
theorem claim6_no_out_of_bounds_access (d : Char) (p : Int) (s : List Char) :
    getPalindromeAtD d p s = getPalindromeAt p s := by
  show _ = getPalindromeAtD '?' p s
  simp only [getPalindromeAtD]
  rw [show expand d s (p - 1) (p + 1) = expand '?' s (p - 1) (p + 1) from
      expandFuel_default_eq d '?' s (s.length + 1) (p - 1) (p + 1) (by omega),
    show expand d s p (p + 1) = expand '?' s p (p + 1) from
      expandFuel_default_eq d '?' s (s.length + 1) p (p + 1) (by omega)]

/-- C7: at an in-range position `p`, `getPalindromeAt` returns the longest
palindromic substring anchored at that center: it is the slice of a
palindromic span whose center sum is `2p` (odd convention) or `2p + 1`
(even convention), has length at least `1` (the single character at `p`),
and is at least as long as every palindromic span with either of those two
center sums. -/
theorem claim7_center_expansion (s : List Char) (p : Nat)
    (hp : p < s.length) :
    ∃ a b : Nat, spanPal s a b ∧
      getPalindromeAt (p : Int) s = (s.drop a).take (b + 1 - a) ∧
      (a + b = 2 * p ∨ a + b = 2 * p + 1) ∧
      1 ≤ b + 1 - a ∧
      ∀ a' b' : Nat, spanPal s a' b' →
        (a' + b' = 2 * p ∨ a' + b' = 2 * p + 1) →
        b' + 1 - a' ≤ b + 1 - a := by
  obtain ⟨a, b, hsp, heq, hlen, hsum, hmax⟩ := getPalindromeAt_spec s p hp
  have hab := hsp.1
  refine ⟨a, b, hsp, heq, hsum, by omega, ?_⟩
  intro a' b' hsp' hsum'
  have h1 := hmax a' b' hsp' hsum'
  have h2 := hsp'.1
  omega

theorem claim7_witness :
    1 < ("aba".toList).length ∧
      ∃ a b : Nat, spanPal ("aba".toList) a b ∧
        getPalindromeAt ((1 : Nat) : Int) ("aba".toList)
          = (("aba".toList).drop a).take (b + 1 - a) ∧
        (a + b = 2 * 1 ∨ a + b = 2 * 1 + 1) ∧
        1 ≤ b + 1 - a ∧
        ∀ a' b' : Nat, spanPal ("aba".toList) a' b' →
          (a' + b' = 2 * 1 ∨ a' + b' = 2 * 1 + 1) →
          b' + 1 - a' ≤ b + 1 - a :=
  ⟨by decide, claim7_center_expansion ("aba".toList) 1 (by decide)⟩

set_option maxRecDepth 100000 in
/-- C8: `findLongestPalindrome` applied to the doctest input
`"a bb aba abba abcba cddc cdc dd c"` returns exactly `"ba abba ab"`. -/
theorem claim8_doctest_value :
    findLongestPalindrome ("a bb aba abba abcba cddc cdc dd c".toList)
      = "ba abba ab".toList := by
  decide

/-- C9: both expansion loops of `getPalindromeAt` terminate on every finite
input: each runs for some `k ≤ length` iterations (`lower` strictly
decreases, `upper` strictly increases) and exits in a state where the loop
guard is false; the outer scan is a fold over the finite range of
positions, so `findLongestPalindrome` is total. -/
theorem claim9_expansion_terminates (s : List Char) (p : Int) :
    ∃ k₁ k₂ : Nat, k₁ ≤ s.length ∧ k₂ ≤ s.length ∧
      expand '?' s (p - 1) (p + 1) = (p - 1 - k₁, p + 1 + k₁) ∧
      ¬ loopGuard '?' s (p - 1 - k₁) (p + 1 + k₁) ∧
      expand '?' s p (p + 1) = (p - k₂, p + 1 + k₂) ∧
      ¬ loopGuard '?' s (p - k₂) (p + 1 + k₂) := by
  obtain ⟨k₁, hk1, hs1, ht1⟩ := expand_spec '?' s (p - 1) (p + 1) (by omega)
  obtain ⟨k₂, hk2, hs2, ht2⟩ := expand_spec '?' s p (p + 1) (by omega)
  refine ⟨k₁, k₂, ?_, ?_, hk1, ht1, hk2, ht2⟩
  · rcases Nat.eq_zero_or_pos k₁ with h | h
    · omega
    · have hg := hs1 (k₁ - 1) (by omega)
      have h1 := hg.1
      have h2 := hg.2.1
      omega
  · rcases Nat.eq_zero_or_pos k₂ with h | h
    · omega
    · have hg := hs2 (k₂ - 1) (by omega)
      have h1 := hg.1
      have h2 := hg.2.1
      omega

/-- C10: for every non-empty input, the result of `findLongestPalindrome`
is non-empty (length at least one): each in-range position's span starts as
the single character at that position. -/
theorem claim10_nonempty_result (s : List Char) (h : s ≠ []) :
    1 ≤ (findLongestPalindrome s).length := by
  have h0 : 1 ≤ s.length := List.length_pos.mpr h
  rw [findLongestPalindrome_eq_bestUpTo]
  obtain ⟨i, hi, hbeq, -, -⟩ := bestUpTo_spec s s.length h0 le_rfl
  rw [hbeq]
  exact getPalindromeAt_length_pos s i hi

theorem claim10_witness :
    ("a".toList ≠ []) ∧ 1 ≤ (findLongestPalindrome ("a".toList)).length :=
  ⟨by decide, claim10_nonempty_result ("a".toList) (by decide)⟩
